import Mathlib

/-!
Verification development for the `sdiffer` structural-difference engine
(`differ.go`, `util.go`).

The Go engine walks two `reflect.Value`s of identical type in lockstep and
accumulates difference records in a map keyed by a textual field path.
We shallowly embed the value model (`Val` mirrors the `reflect.Kind`s the
engine dispatches on), the configuration state (`Differ`), and the recursive
comparison (`doCompare`), threading the diff map explicitly and turning each
Go `panic` into an explicit error value (`GoErr`).

Machine integers only appear as lengths and map sizes, far from overflow, so
they are modelled as `Nat`/`Int` directly.  Regular-expression matchers
(compiled by `regexp.MustCompile` in Go) are modelled as boolean predicates
on paths; `regexp.Compile` (which can fail) is modelled as an optional
predicate.
-/

set_option autoImplicit false
set_option linter.unreachableTactic false
set_option linter.unusedTactic false

namespace Sdiffer

/-- Declared (static) Go type of a value, as far as the engine inspects it:
`a.Type() != b.Type()` comparisons, array element types, and type names. -/
inductive Ty where
  | tInt : Ty
  | tBool : Ty
  | tStr : Ty
  | tPtr : Ty → Ty
  | tSlice : Ty → Ty
  | tArray : Nat → Ty → Ty
  | tStruct : String → List (String × Ty) → Ty
  | tMap : Ty → Ty
  | tIface : Ty
  | tInvalid : Ty

/-- `Type.Name()`: builtin scalar types and named struct types have names;
pointer, slice, array, map and interface types are unnamed (empty name). -/
def tyName : Ty → String
  | .tInt => "int"
  | .tBool => "bool"
  | .tStr => "string"
  | .tStruct n _ => n
  | _ => ""

/-- A Go value as seen through `reflect`, restricted to the kinds
`doCompare` dispatches on.  Slices and pointers carry a `Nat` identifier
standing for the backing pointer (`Value.Pointer()`); `none` payloads are
nil references; `vInvalid` is the invalid zero `reflect.Value` (as returned
by `MapIndex` on an absent key).  Scalar leaves are `vInt`/`vBool`/`vStr`
(the engine treats all remaining scalar kinds alike in its `default`
branch, so one numeric representative suffices).  Map entries are keyed by
the rendered key string (`toString(k.Interface())`). -/
inductive Val where
  | vInt : Int → Val
  | vBool : Bool → Val
  | vStr : String → Val
  | vPtr : Ty → Option (Nat × Val) → Val
  | vSlice : Ty → Option (Nat × List Val) → Val
  | vArray : Ty → List Val → Val
  | vStruct : String → List (String × Val) → Val
  | vMap : Ty → Option (List (String × Val)) → Val
  | vIface : Option Val → Val
  | vInvalid : Val

mutual
/-- Static type of a value (`Value.Type()`). -/
def tyOf : Val → Ty
  | .vInt _ => .tInt
  | .vBool _ => .tBool
  | .vStr _ => .tStr
  | .vPtr t _ => .tPtr t
  | .vSlice t _ => .tSlice t
  | .vArray t es => .tArray es.length t
  | .vStruct n fs => .tStruct n (tyFields fs)
  | .vMap t _ => .tMap t
  | .vIface _ => .tIface
  | .vInvalid => .tInvalid

/-- Field types of a struct value. -/
def tyFields : List (String × Val) → List (String × Ty)
  | [] => []
  | (n, v) :: r => (n, tyOf v) :: tyFields r
end

mutual
/-- Size measure used for termination of the comparison recursion. -/
def sz : Val → Nat
  | .vInt _ => 1
  | .vBool _ => 1
  | .vStr _ => 1
  | .vInvalid => 1
  | .vPtr _ none => 1
  | .vPtr _ (some iv) => 2 + sz iv.2
  | .vSlice _ none => 1
  | .vSlice _ (some il) => 1 + szl il.2
  | .vArray _ es => 1 + szl es
  | .vStruct _ fs => 1 + szf fs
  | .vMap _ none => 1
  | .vMap _ (some kvs) => 1 + szf kvs
  | .vIface none => 1
  | .vIface (some v) => 2 + sz v

/-- Size of a list of values. -/
def szl : List Val → Nat
  | [] => 0
  | v :: r => 1 + sz v + szl r

/-- Size of an association list of values. -/
def szf : List (String × Val) → Nat
  | [] => 0
  | p :: r => 1 + sz p.2 + szf r
end

mutual
/-- Boolean equality of declared types, modelling Go's `a.Type() != b.Type()`
test (type identity). -/
def tyEq : Ty → Ty → Bool
  | .tInt, .tInt => true
  | .tBool, .tBool => true
  | .tStr, .tStr => true
  | .tPtr a, .tPtr b => tyEq a b
  | .tSlice a, .tSlice b => tyEq a b
  | .tArray n a, .tArray m b => n == m && tyEq a b
  | .tStruct n fs, .tStruct m gs => n == m && tyEqF fs gs
  | .tMap a, .tMap b => tyEq a b
  | .tIface, .tIface => true
  | .tInvalid, .tInvalid => true
  | _, _ => false

/-- Boolean equality of struct field type lists. -/
def tyEqF : List (String × Ty) → List (String × Ty) → Bool
  | [], [] => true
  | (n, a) :: r, (m, b) :: s => n == m && tyEq a b && tyEqF r s
  | _, _ => false
end

/-- First value bound to a key in an association list (Go map lookup;
model maps carry distinct keys). -/
def lookupA (kvs : List (String × Val)) (k : String) : Option Val :=
  match kvs.find? (fun p => p.1 = k) with
  | some p => some p.2
  | none => none

/-- `Value.Len()` for the kinds that have a length (others panic in Go). -/
def lenOf : Val → Option Nat
  | .vStr s => some s.length
  | .vSlice _ none => some 0
  | .vSlice _ (some il) => some il.2.length
  | .vArray _ es => some es.length
  | .vMap _ none => some 0
  | .vMap _ (some kvs) => some kvs.length
  | _ => none

/-- `Value.IsNil()` for the nilable kinds (others panic in Go). -/
def isNilOf : Val → Option Bool
  | .vPtr _ p => some p.isNone
  | .vSlice _ p => some p.isNone
  | .vMap _ p => some p.isNone
  | .vIface p => some p.isNone
  | _ => none

mutual
/-- Model of `reflect.DeepEqual(a.Interface(), b.Interface())`: structural
equality ignoring backing pointers, except that identical pointers
short-circuit to equal (as in `deepValueEqual`).  Maps compare as: equal
size and every key of `a` bound in `b` to a deeply equal value. -/
def deepEq : Val → Val → Bool
  | .vInt n, .vInt m => n == m
  | .vBool p, .vBool q => p == q
  | .vStr s, .vStr t => s == t
  | .vInvalid, .vInvalid => true
  | .vPtr t pa, .vPtr u pb =>
    tyEq t u &&
      match pa, pb with
      | none, none => true
      | some iv, some jw => iv.1 == jw.1 || deepEq iv.2 jw.2
      | _, _ => false
  | .vSlice t pa, .vSlice u pb =>
    tyEq t u &&
      match pa, pb with
      | none, none => true
      | some il, some jl =>
        il.2.length == jl.2.length && (il.1 == jl.1 || deepEqL il.2 jl.2)
      | _, _ => false
  | .vArray t xs, .vArray u ys =>
    tyEq t u && xs.length == ys.length && deepEqL xs ys
  | .vStruct n xfs, .vStruct m yfs => n == m && deepEqF xfs yfs
  | .vMap t pa, .vMap u pb =>
    tyEq t u &&
      match pa, pb with
      | none, none => true
      | some xs, some ys => xs.length == ys.length && deepEqM ys xs
      | _, _ => false
  | .vIface pa, .vIface pb =>
    match pa, pb with
    | none, none => true
    | some x, some y => deepEq x y
    | _, _ => false
  | _, _ => false
termination_by a _ => sz a
decreasing_by all_goals simp [sz, szl, szf] <;> omega

/-- Elementwise deep equality of two lists. -/
def deepEqL : List Val → List Val → Bool
  | [], [] => true
  | x :: xs, y :: ys => deepEq x y && deepEqL xs ys
  | _, _ => false
termination_by l _ => szl l
decreasing_by all_goals simp [sz, szl, szf] <;> omega

/-- Fieldwise deep equality of struct fields. -/
def deepEqF : List (String × Val) → List (String × Val) → Bool
  | [], [] => true
  | (n, x) :: xs, (m, y) :: ys => n == m && deepEq x y && deepEqF xs ys
  | _, _ => false
termination_by l _ => szf l
decreasing_by all_goals simp [sz, szl, szf] <;> omega

/-- Every entry of the second map is bound in `ys` to a deeply equal value. -/
def deepEqM (ys : List (String × Val)) : List (String × Val) → Bool
  | [] => true
  | (k, v) :: xs =>
    (match lookupA ys k with
     | some w => deepEq v w
     | none => false) && deepEqM ys xs
termination_by xs => szf xs
decreasing_by all_goals simp [sz, szl, szf] <;> omega
end

/-- A value stored on one side of a difference record
(Go `interface{}` argument of `newDiff`): the raw `reflect.Value` for leaf
differences, a rendering string for nil differences, a length for length
differences. -/
inductive DVal where
  | ofVal : Val → DVal
  | ofStr : String → DVal
  | ofInt : Int → DVal

/-- Modelled from the spec: the Difference Record type (`diff` and
`newDiff` live in a repository file that is not under `src/`); per the
spec it carries the field path where the disagreement occurred and the
renderings of both sides. -/
structure DiffRec where
  fieldName : String
  va : DVal
  vb : DVal

/-- The accumulated diff set: models the Go map `diffs map[string]*diff`
as an association list with unique `fieldName` keys. -/
abbrev Diffs := List DiffRec

/-- Modelled from the spec: the customized comparator contract
(`Comparator` and `DiffType` live in a repository file that is not under
`src/`).  Per the spec a comparator matches paths and returns one of four
outcome codes together with renderings of both sides; outcome codes are
small integers, any value outside the four named ones breaking the
contract. -/
structure Comparator where
  matchString : String → Bool
  equals : Val → Val → Int × DVal × DVal

/-- Comparator outcome: no difference. -/
def NoDiff : Int := 0

/-- Comparator outcome: length difference. -/
def LengthDiff : Int := 1

/-- Comparator outcome: nullability difference. -/
def NilDiff : Int := 2

/-- Comparator outcome: element difference. -/
def ElemDiff : Int := 3

/-- Modelled from the spec: a sorter (the `Sorter` interface lives in a
repository file that is not under `src/`): a path matcher plus an ordering
predicate used to sort both sides of a matched sequence before descent. -/
structure Sorter where
  matchString : String → Bool
  less : Val → Val → Bool

/-- Modelled from the spec / `WithTrim`: a trim-by-cutset rule
(`trimTag` lives in a repository file that is not under `src/`): a
compiled field-path matcher plus the cutset handed to `strings.Trim`. -/
structure TrimTag where
  fieldMatch : String → Bool
  cutset : String

/-- `strings.Trim(s, cutset)`: remove leading and trailing characters
contained in `cutset`. -/
def goTrim (s cutset : String) : String :=
  let cs := cutset.toList
  String.mk (((s.toList.dropWhile (cs.contains ·)).reverse.dropWhile
    (cs.contains ·)).reverse)

/-- `strings.TrimSpace(s)` (ASCII whitespace model). -/
def goTrimSpace (s : String) : String :=
  goTrim s " \t\n\r"

/-- `isStringBlank` from `util.go`. -/
def isStringBlank (s : String) : Bool :=
  (goTrimSpace s).length == 0

/-- The engine state (`Differ` struct): accumulated diffs plus the filter,
trim, comparator, sorter and depth configuration.  Compiled regexps are
modelled as boolean predicates on paths; the output template and buffer
only affect rendering and are omitted. -/
structure Differ where
  diffs : Diffs
  ignores : List (String → Bool)
  includes : List (String → Bool)
  trimSpaces : List (String → Bool)
  trimTags : List TrimTag
  comparators : List Comparator
  sorters : List Sorter
  maxDepth : Nat

/-- `defaultDepthLimit`. -/
def defaultDepthLimit : Nat := 30

/-- Root path marker (`initTypeName`). -/
def initTypeName : String := "$"

/-- Rendering of a nil side (`null`). -/
def nullStr : String := "<nil>"

/-- Rendering of a non-nil side (`notNull`). -/
def notNullStr : String := "<not nil>"

/-- Path suffix marking a comparator override (`useComparatorSuffix`). -/
def useComparatorSuffix : String := ".$[customized]"

/-- `NewDiffer()`. -/
def newDiffer : Differ :=
  { diffs := []
    ignores := []
    includes := []
    trimSpaces := []
    trimTags := []
    comparators := []
    sorters := []
    maxDepth := defaultDepthLimit }

/-- `Differ.Ignore`: a no-op once includes exist, otherwise replaces the
ignore patterns. -/
def Ignore (d : Differ) (ms : List (String → Bool)) : Differ :=
  if 0 < d.includes.length then d else { d with ignores := ms }

/-- `Differ.Includes`: replaces the include patterns. -/
def Includes (d : Differ) (ms : List (String → Bool)) : Differ :=
  { d with includes := ms }

/-- `Differ.WithComparator`. -/
def WithComparator (d : Differ) (c : Comparator) : Differ :=
  { d with comparators := d.comparators ++ [c] }

/-- `Differ.WithSorter`. -/
def WithSorter (d : Differ) (s : Sorter) : Differ :=
  { d with sorters := d.sorters ++ [s] }

/-- `Differ.WithTrim`. -/
def WithTrim (d : Differ) (fieldMatch : String → Bool) (cutset : String) :
    Differ :=
  { d with trimTags := d.trimTags ++ [⟨fieldMatch, cutset⟩] }

/-- `Differ.WithTrimSpace`. -/
def WithTrimSpace (d : Differ) (ms : List (String → Bool)) : Differ :=
  { d with trimSpaces := d.trimSpaces ++ ms }

/-- `Differ.WithMaxDepth`. -/
def WithMaxDepth (d : Differ) (n : Nat) : Differ :=
  { d with maxDepth := n }

/-- `Differ.FindDiff`: exact-path lookup in the diff map. -/
def FindDiff (d : Differ) (fieldName : String) : Option DiffRec :=
  d.diffs.find? (fun r => r.fieldName = fieldName)

/-- `Differ.FindDiffFuzzily`: `regexp.Compile(expr)` is modelled by the
host compile function `compileF`; on a compile error (`none`) the Go code
skips the loop and returns the nil slice. -/
def FindDiffFuzzily (compileF : String → Option (String → Bool))
    (d : Differ) (expr : String) : List DiffRec :=
  match compileF expr with
  | none => []
  | some r => d.diffs.filter (fun df => r df.fieldName)

/-- `Differ.Reset`: clears configuration and results, keeping the depth
limit (and template). -/
def Reset (d : Differ) : Differ :=
  { d with
    diffs := []
    ignores := []
    includes := []
    trimSpaces := []
    trimTags := []
    comparators := []
    sorters := [] }

/-- Filter mode (`diffMode`). -/
inductive DiffMode where
  | ignoreMode : DiffMode
  | includeMode : DiffMode
  | allDiffMode : DiffMode
  deriving DecidableEq

/-- `Differ.getDiffMode`: derived, not stored. -/
def getDiffMode (d : Differ) : DiffMode :=
  if 0 < d.includes.length then .includeMode
  else if 0 < d.ignores.length then .ignoreMode
  else .allDiffMode

/-- `Differ.isIncludedField`. -/
def isIncludedField (d : Differ) (fieldName : String) : Bool :=
  d.includes.any (fun m => m fieldName)

/-- `Differ.isIgnoredField`. -/
def isIgnoredField (d : Differ) (fieldName : String) : Bool :=
  d.ignores.any (fun m => m fieldName)

/-- Store a record in the diff map (`d.diffs[fieldName] = newDiff(...)`):
Go map assignment, overwriting any record at the same key. -/
def insertDiff (st : Diffs) (r : DiffRec) : Diffs :=
  st.filter (fun x => x.fieldName ≠ r.fieldName) ++ [r]

/-- `Differ.setDiff`: the record-insertion filter. -/
def setDiff (d : Differ) (st : Diffs) (fieldName : String) (va vb : DVal) :
    Diffs :=
  match getDiffMode d with
  | .includeMode =>
    if isIncludedField d fieldName then insertDiff st ⟨fieldName, va, vb⟩
    else st
  | .ignoreMode =>
    if isIgnoredField d fieldName then st
    else insertDiff st ⟨fieldName, va, vb⟩
  | .allDiffMode => insertDiff st ⟨fieldName, va, vb⟩

/-- The fatal conditions (`panic`s) of the engine. -/
inductive GoErr where
  | depthOverLimit : GoErr
  | valueInvalid : GoErr
  | typeMismatch : GoErr
  | unexpectedInterface : GoErr
  | comparatorContract : GoErr
  | reflectPanic : GoErr
  deriving DecidableEq

/-- `Value.IsValid()`. -/
def isValidV : Val → Bool
  | .vInvalid => false
  | _ => true

/-- `Differ.setLenDiff` with the two lengths already read:
records at `fieldName + "[Length]"`. -/
def setLenDiffN (d : Differ) (st : Diffs) (fieldName : String)
    (la lb : Nat) : Diffs :=
  setDiff d st (fieldName ++ "[Length]") (.ofInt la) (.ofInt lb)

/-- Rendering of one side in a nil diff (`iF(v.IsNil(), null, notNull)`). -/
def nilRender (isNil : Bool) : String :=
  if isNil then nullStr else notNullStr

/-- `Differ.setNilDiff` with the two nil flags already read. -/
def setNilDiffB (d : Differ) (st : Diffs) (fieldName : String)
    (na nb : Bool) : Diffs :=
  setDiff d st fieldName (.ofStr (nilRender na)) (.ofStr (nilRender nb))

/-- The comparator-override branch of `doCompare` (lines 190-207 of
`differ.go`): annotate the path, invoke the comparator, dispatch on the
outcome code; an unexpected code is the Protocol Violation panic.
Reading a length (nil flag) of a value without one panics in `reflect`. -/
def runComparator (d : Differ) (c : Comparator) (a b : Val)
    (fieldPath : String) (st : Diffs) : Diffs × Option GoErr :=
  let fp := fieldPath ++ useComparatorSuffix
  let r := c.equals a b
  if r.1 = LengthDiff then
    match lenOf a, lenOf b with
    | some la, some lb => (setLenDiffN d st fp la lb, none)
    | _, _ => (st, some .reflectPanic)
  else if r.1 = NilDiff then
    match isNilOf a, isNilOf b with
    | some na, some nb => (setNilDiffB d st fp na nb, none)
    | _, _ => (st, some .reflectPanic)
  else if r.1 = ElemDiff then (setDiff d st fp r.2.1 r.2.2, none)
  else if r.1 = NoDiff then (st, none)
  else (st, some .comparatorContract)

/-- Element pairs of the Array branch: lockstep over the shared minimum
length, every descent path being the element type's name
(`a.Index(i).Type().Name()`). -/
def arrPairs (seg : String) : List Val → List Val → List (Val × Val × String)
  | x :: xs, y :: ys => (x, y, seg) :: arrPairs seg xs ys
  | _, _ => []

/-- Element pairs of the Slice branch: lockstep over the shared minimum
length, descent path `fieldPath[i]`. -/
def idxPairs (p : String) : Nat → List Val → List Val →
    List (Val × Val × String)
  | i, x :: xs, y :: ys =>
    (x, y, p ++ "[" ++ toString i ++ "]") :: idxPairs p (i + 1) xs ys
  | _, _, _ => []

/-- Field pairs of the Struct branch: descent path `fieldPath.<name>`. -/
def fieldPairs (p : String) : List (String × Val) → List (String × Val) →
    List (Val × Val × String)
  | (n, x) :: xs, (_, y) :: ys => (x, y, p ++ "." ++ n) :: fieldPairs p xs ys
  | _, _ => []

/-- Entry pairs of the Map branch: iterate the keys of `a`
(`a.MapKeys()`), looking each up in `b`; an absent key yields the invalid
zero `reflect.Value`.  Descent path `fieldPath[<key>]`. -/
def mapPairs (p : String) (bkvs : List (String × Val)) :
    List (String × Val) → List (Val × Val × String)
  | [] => []
  | (k, v) :: xs =>
    (v, (lookupA bkvs k).getD .vInvalid, p ++ "[" ++ k ++ "]") ::
      mapPairs p bkvs xs

/-- The working-copy sort used for disordered-sequence comparison.
Modelled from the spec: `qsort` is not under `src/`; per the spec it
stable-sorts using the sorter's ordering predicate. -/
def sortList (less : Val → Val → Bool) (l : List Val) : List Val :=
  l.insertionSort (fun x y => less x y = true)

/-- Size of a pair list, dominated by the left components. -/
def szps : List (Val × Val × String) → Nat
  | [] => 0
  | pr :: r => 1 + sz pr.1 + szps r

theorem szps_arrPairs (seg : String) :
    ∀ xs ys : List Val, szps (arrPairs seg xs ys) ≤ szl xs := by
  intro xs
  induction xs with
  | nil => intro ys; cases ys <;> simp [arrPairs, szps]
  | cons x xs ih =>
    intro ys
    cases ys with
    | nil => simp [arrPairs, szps]
    | cons y ys =>
      have := ih ys
      simp only [arrPairs, szps, szl]
      omega

theorem szps_idxPairs (p : String) :
    ∀ (xs ys : List Val) (i : Nat), szps (idxPairs p i xs ys) ≤ szl xs := by
  intro xs
  induction xs with
  | nil => intro ys i; cases ys <;> simp [idxPairs, szps]
  | cons x xs ih =>
    intro ys i
    cases ys with
    | nil => simp [idxPairs, szps]
    | cons y ys =>
      have := ih ys (i + 1)
      simp only [idxPairs, szps, szl]
      omega

theorem szps_fieldPairs (p : String) :
    ∀ xs ys : List (String × Val),
      szps (fieldPairs p xs ys) ≤ szf xs := by
  intro xs
  induction xs with
  | nil => intro ys; cases ys <;> simp [fieldPairs, szps]
  | cons x xs ih =>
    intro ys
    cases ys with
    | nil => simp [fieldPairs, szps]
    | cons y ys =>
      have := ih ys
      obtain ⟨n, v⟩ := x
      obtain ⟨m, w⟩ := y
      simp only [fieldPairs, szps, szf]
      omega

theorem szps_mapPairs (p : String) (ykvs : List (String × Val)) :
    ∀ xs : List (String × Val), szps (mapPairs p ykvs xs) ≤ szf xs := by
  intro xs
  induction xs with
  | nil => simp [mapPairs, szps]
  | cons x xs ih =>
    obtain ⟨k, v⟩ := x
    simp only [mapPairs, szps, szf]
    omega

theorem szl_perm {l l' : List Val} (h : l.Perm l') : szl l = szl l' := by
  induction h with
  | nil => rfl
  | cons x _ ih => simp [szl, ih]
  | swap x y l => simp [szl]; omega
  | trans _ _ ih1 ih2 => omega

theorem szl_sortList (less : Val → Val → Bool) (l : List Val) :
    szl (sortList less l) = szl l :=
  szl_perm (List.perm_insertionSort _ l)

mutual
/-- `Differ.doCompare` (lines 177-317 of `differ.go`): depth, validity and
type guards; comparator override; then kind-based dispatch.  The diff map
is threaded explicitly; a `panic` becomes `some err`, keeping the diffs
accumulated so far. -/
def doCompare (d : Differ) (a b : Val) (fieldPath : String) (depth : Nat)
    (st : Diffs) : Diffs × Option GoErr :=
  if d.maxDepth < depth then (st, some .depthOverLimit)
  else if !isValidV a || !isValidV b then (st, some .valueInvalid)
  else if !tyEq (tyOf a) (tyOf b) then (st, some .typeMismatch)
  else
    match d.comparators.find? (fun c => c.matchString fieldPath) with
    | some c => runComparator d c a b fieldPath st
    | none =>
      match a, b with
      | .vArray t xs, .vArray _ ys =>
        compareList d (arrPairs (tyName t) xs ys) depth st
      | .vSlice _ pa, .vSlice _ pb =>
        match pa, pb with
        | none, none => (st, none)
        | none, some _ => (setNilDiffB d st fieldPath true false, none)
        | some _, none => (setNilDiffB d st fieldPath false true, none)
        | some il, some jl =>
          let st1 :=
            if il.2.length ≠ jl.2.length then
              setLenDiffN d st fieldPath il.2.length jl.2.length
            else st
          if il.1 = jl.1 then (st1, none)
          else
            match d.sorters.find? (fun s => s.matchString fieldPath) with
            | some s =>
              compareList d
                (idxPairs fieldPath 0 (sortList s.less il.2)
                  (sortList s.less jl.2)) depth st1
            | none => compareList d (idxPairs fieldPath 0 il.2 jl.2) depth st1
      | .vIface pa, .vIface pb =>
        match pa, pb with
        | none, none => (st, some .unexpectedInterface)
        | none, some _ => (setNilDiffB d st fieldPath true false, none)
        | some _, none => (setNilDiffB d st fieldPath false true, none)
        | some x, some y =>
          match x with
          | .vStr s => doCompare d (.vStr s) y fieldPath depth st
          | .vBool q => doCompare d (.vBool q) y fieldPath depth st
          | .vSlice u pl => doCompare d (.vSlice u pl) y fieldPath depth st
          | .vMap u pm => doCompare d (.vMap u pm) y fieldPath (depth + 1) st
          | _ => (st, some .unexpectedInterface)
      | .vPtr _ pa, .vPtr _ pb =>
        match pa, pb with
        | none, none => (st, none)
        | none, some _ => (setNilDiffB d st fieldPath true false, none)
        | some _, none => (setNilDiffB d st fieldPath false true, none)
        | some iv, some jw =>
          if iv.1 = jw.1 then (st, none)
          else doCompare d iv.2 jw.2 fieldPath depth st
      | .vStruct _ xfs, .vStruct _ yfs =>
        compareList d (fieldPairs fieldPath xfs yfs) (depth + 1) st
      | .vMap _ pa, .vMap _ pb =>
        match pa, pb with
        | none, none => (st, none)
        | none, some _ => (setNilDiffB d st fieldPath true false, none)
        | some _, none => (setNilDiffB d st fieldPath false true, none)
        | some xkvs, some ykvs =>
          let st1 :=
            if xkvs.length ≠ ykvs.length then
              setLenDiffN d st fieldPath xkvs.length ykvs.length
            else st
          compareList d (mapPairs fieldPath ykvs xkvs) depth st1
      | .vStr s, .vStr t =>
        match d.trimSpaces.find? (fun m => m fieldPath) with
        | some _ =>
          if goTrimSpace s = goTrimSpace t then (st, none)
          else
            (setDiff d st fieldPath (.ofVal (.vStr s)) (.ofVal (.vStr t)),
              none)
        | none =>
          match d.trimTags.find? (fun tt => tt.fieldMatch fieldPath) with
          | some tt =>
            if goTrim s tt.cutset = goTrim t tt.cutset then (st, none)
            else
              (setDiff d st fieldPath (.ofVal (.vStr s)) (.ofVal (.vStr t)),
                none)
          | none =>
            if deepEq (.vStr s) (.vStr t) then (st, none)
            else
              (setDiff d st fieldPath (.ofVal (.vStr s)) (.ofVal (.vStr t)),
                none)
      | x, y =>
        if deepEq x y then (st, none)
        else (setDiff d st fieldPath (.ofVal x) (.ofVal y), none)
termination_by sz a
decreasing_by
all_goals
  first
  | (simp only [sz]
     have h1 := szps_arrPairs (tyName t) xs ys
     omega)
  | (simp only [sz]
     have h1 := szps_idxPairs fieldPath (sortList s.less il.2)
       (sortList s.less jl.2) 0
     have h2 := szl_sortList s.less il.2
     omega)
  | (simp only [sz]
     have h1 := szps_idxPairs fieldPath il.2 jl.2 0
     omega)
  | (simp only [sz]
     have h1 := szps_fieldPairs fieldPath xfs yfs
     omega)
  | (simp only [sz]
     have h1 := szps_mapPairs fieldPath ykvs xkvs
     omega)
  | (simp [sz] <;> omega)

/-- Sequential lockstep descent over a list of element pairs, stopping at
the first fatal error (the Go `panic` unwinds out of the loop). -/
def compareList (d : Differ) :
    List (Val × Val × String) → Nat → Diffs → Diffs × Option GoErr
  | [], _, st => (st, none)
  | pr :: rest, depth, st =>
    match doCompare d pr.1 pr.2.1 pr.2.2 depth st with
    | (st', none) => compareList d rest depth st'
    | r => r
termination_by ps => szps ps
decreasing_by
all_goals simp [szps] <;> omega
end

/-- Root type name used by `Compare`: the declared type's name, or the
pointee type's name for pointers (panics on a nil pointer, since
`Elem()` of a nil pointer is the invalid value). -/
def rootTypeName : Val → Option String
  | .vPtr t (some _) => some (tyName t)
  | .vPtr _ none => none
  | v => some (tyName (tyOf v))

/-- `Differ.Compare` (lines 164-175 of `differ.go`): top-level type guard,
root-path computation, then recursive comparison from depth 0 starting
from the session's accumulated diffs. -/
def Compare (d : Differ) (a b : Val) : Differ × Option GoErr :=
  match a, b with
  | .vInvalid, _ => (d, some .reflectPanic)
  | _, .vInvalid => (d, some .reflectPanic)
  | _, _ =>
    if !tyEq (tyOf a) (tyOf b) then (d, some .typeMismatch)
    else
      match rootTypeName a with
      | none => (d, some .reflectPanic)
      | some tn =>
        let nm := if isStringBlank tn then initTypeName else tn
        let r := doCompare d a b nm 0 d.diffs
        ({ d with diffs := r.1 }, r.2)

/-- Heap of slice backing stores, for the frame-effect model of
`sortSlice`: index = backing pointer, entry = stored elements. -/
abbrev SliceStore := List (List Val)

/-- Contents behind a backing pointer. -/
def readS (store : SliceStore) (i : Nat) : List Val :=
  store.getD i []

/-- `copySliceValue` from `util.go`: allocate a fresh backing store
(`reflect.MakeSlice`) of the same length and copy the elements into it
one by one; returns the new store and its (fresh) backing pointer. -/
def copySliceValue (store : SliceStore) (i : Nat) : SliceStore × Nat :=
  (store ++ [readS store i], store.length)

/-- Modelled from the spec: `qsort` is not under `src/`; per the spec it
sorts the referenced backing store in place with the sorter's ordering
predicate (stable sort). -/
def qsortS (store : SliceStore) (i : Nat) (less : Val → Val → Bool) :
    SliceStore :=
  store.set i (sortList less (readS store i))

/-- `Differ.sortSlice` (lines 319-326 of `differ.go`): deep copy both
slices, then sort each copy in place; returns the new heap and the two
copies' backing pointers. -/
def sortSlice (store : SliceStore) (ia ib : Nat) (s : Sorter) :
    SliceStore × Nat × Nat :=
  let ca := copySliceValue store ia
  let cb := copySliceValue ca.1 ib
  (qsortS (qsortS cb.1 ca.2 s.less) cb.2 s.less, ca.2, cb.2)

/-! ## Frame lemmas for the slice heap -/

theorem readS_append_lt (l1 l2 : SliceStore) (j : Nat) (h : j < l1.length) :
    readS (l1 ++ l2) j = readS l1 j :=
  List.getD_append _ _ _ _ h

theorem readS_append_at (l1 : SliceStore) (x : List Val) (l2 : SliceStore) :
    readS (l1 ++ x :: l2) l1.length = x := by
  unfold readS
  rw [List.getD_append_right _ _ _ _ (le_refl _)]
  simp

theorem readS_set_ne (l : SliceStore) (i j : Nat) (x : List Val)
    (h : j ≠ i) : readS (l.set i x) j = readS l j := by
  unfold readS
  simp [List.getD_eq_getD_get?, List.getElem?_set_ne (Ne.symm h)]

theorem readS_set_self (l : SliceStore) (i : Nat) (x : List Val)
    (h : i < l.length) : readS (l.set i x) i = x := by
  unfold readS
  simp [List.getD_eq_getD_get?, List.getElem?_set_self, h]

theorem sortSlice_fst (store : SliceStore) (ia ib : Nat) (s : Sorter)
    (hb : ib < store.length) :
    (sortSlice store ia ib s).1 =
      ((store ++ [readS store ia] ++ [readS store ib]).set store.length
          (sortList s.less (readS store ia))).set (store.length + 1)
        (sortList s.less (readS store ib)) ∧
    (sortSlice store ia ib s).2.1 = store.length ∧
    (sortSlice store ia ib s).2.2 = store.length + 1 := by
  have hB : readS (store ++ [readS store ia]) ib = readS store ib :=
    readS_append_lt _ _ _ hb
  have hA : readS (store ++ [readS store ia] ++ [readS store ib])
      store.length = readS store ia := by
    rw [List.append_assoc]
    exact readS_append_at store _ _
  have hB2 : readS ((store ++ [readS store ia] ++
        [readS store ib]).set store.length
        (sortList s.less (readS store ia))) (store.length + 1) =
      readS store ib := by
    rw [readS_set_ne _ _ _ _ (by omega)]
    have : (store ++ [readS store ia]).length = store.length + 1 := by simp
    calc readS (store ++ [readS store ia] ++ [readS store ib])
          (store.length + 1)
        = readS ((store ++ [readS store ia]) ++ readS store ib :: [])
          (store ++ [readS store ia]).length := by rw [this]
      _ = readS store ib := readS_append_at _ _ _
  simp only [sortSlice, copySliceValue, qsortS, hB]
  refine ⟨?_, by simp, by simp⟩
  rw [hA]
  have hlen : (store ++ [readS store ia]).length = store.length + 1 := by
    simp
  rw [hlen, hB2]

/-- C7: when a sorter matches a sequence path, `sortSlice` sorts freshly
allocated working copies: every pre-existing backing store (in particular
both original sequences, order and contents) reads back unchanged, the
two copies' backing pointers are outside the original heap (never
aliasing caller data) and distinct from each other, and each copy holds
exactly the sorted contents of its original. -/
theorem claim_c7_sorted_copies_fresh_and_frame (store : SliceStore)
    (ia ib : Nat) (s : Sorter) (ha : ia < store.length)
    (hb : ib < store.length) :
    (∀ j, j < store.length →
      readS (sortSlice store ia ib s).1 j = readS store j) ∧
    store.length ≤ (sortSlice store ia ib s).2.1 ∧
    store.length ≤ (sortSlice store ia ib s).2.2 ∧
    (sortSlice store ia ib s).2.1 ≠ (sortSlice store ia ib s).2.2 ∧
    readS (sortSlice store ia ib s).1 (sortSlice store ia ib s).2.1 =
      sortList s.less (readS store ia) ∧
    readS (sortSlice store ia ib s).1 (sortSlice store ia ib s).2.2 =
      sortList s.less (readS store ib) := by
  obtain ⟨h1, h2, h3⟩ := sortSlice_fst store ia ib s hb
  refine ⟨?_, by omega, by omega, by omega, ?_, ?_⟩
  · intro j hj
    rw [h1, readS_set_ne _ _ _ _ (by omega), readS_set_ne _ _ _ _ (by omega),
      readS_append_lt _ _ _ (by simp; omega), readS_append_lt _ _ _ hj]
  · rw [h1, h2, readS_set_ne _ _ _ _ (by omega),
      readS_set_self _ _ _ (by simp)]
  · rw [h1, h3, readS_set_self _ _ _ (by simp)]

/-- C7 witness: a heap with one stored sequence, both sides of the sort
referring to it. -/
theorem claim_c7_witness :
    0 < ([[Val.vInt 2, Val.vInt 1]] : SliceStore).length ∧
    ((∀ j, j < ([[Val.vInt 2, Val.vInt 1]] : SliceStore).length →
      readS (sortSlice [[Val.vInt 2, Val.vInt 1]] 0 0
        ⟨fun _ => true, fun _ _ => false⟩).1 j =
        readS [[Val.vInt 2, Val.vInt 1]] j) ∧
    ([[Val.vInt 2, Val.vInt 1]] : SliceStore).length ≤
      (sortSlice [[Val.vInt 2, Val.vInt 1]] 0 0
        ⟨fun _ => true, fun _ _ => false⟩).2.1 ∧
    ([[Val.vInt 2, Val.vInt 1]] : SliceStore).length ≤
      (sortSlice [[Val.vInt 2, Val.vInt 1]] 0 0
        ⟨fun _ => true, fun _ _ => false⟩).2.2 ∧
    (sortSlice [[Val.vInt 2, Val.vInt 1]] 0 0
        ⟨fun _ => true, fun _ _ => false⟩).2.1 ≠
      (sortSlice [[Val.vInt 2, Val.vInt 1]] 0 0
        ⟨fun _ => true, fun _ _ => false⟩).2.2 ∧
    readS (sortSlice [[Val.vInt 2, Val.vInt 1]] 0 0
        ⟨fun _ => true, fun _ _ => false⟩).1
      (sortSlice [[Val.vInt 2, Val.vInt 1]] 0 0
        ⟨fun _ => true, fun _ _ => false⟩).2.1 =
      sortList (fun _ _ => false) (readS [[Val.vInt 2, Val.vInt 1]] 0) ∧
    readS (sortSlice [[Val.vInt 2, Val.vInt 1]] 0 0
        ⟨fun _ => true, fun _ _ => false⟩).1
      (sortSlice [[Val.vInt 2, Val.vInt 1]] 0 0
        ⟨fun _ => true, fun _ _ => false⟩).2.2 =
      sortList (fun _ _ => false) (readS [[Val.vInt 2, Val.vInt 1]] 0)) :=
  ⟨by simp,
    claim_c7_sorted_copies_fresh_and_frame [[Val.vInt 2, Val.vInt 1]] 0 0
      ⟨fun _ => true, fun _ _ => false⟩ (by simp) (by simp)⟩

/-! ## Spec-side definitions

Definitions written from the spec's / claims' wording, to be compared
with the source-side functions above. -/

/-- The record-insertion filter as the spec words it: if any
include-patterns are configured, store iff the path matches at least one
include-pattern; otherwise if any exclude-patterns are configured, store
iff the path matches no exclude-pattern; otherwise always store. -/
def storedPerSpec (d : Differ) (p : String) : Bool :=
  if 0 < d.includes.length then d.includes.any (fun m => m p)
  else if 0 < d.ignores.length then !(d.ignores.any (fun m => m p))
  else true

/-- The comparator override as the claim words it: annotate the path with
the customized-comparator suffix, invoke the comparator on both raw
values, then dispatch the outcome: no-difference records nothing,
length-difference records a length mismatch at the annotated path,
nullability-difference records a presence mismatch at the annotated path,
element-difference records the comparator-supplied renderings at the
annotated path, and any other outcome is the fatal Protocol Violation;
no kind-based descent happens. -/
def comparatorDispatchSpec (d : Differ) (c : Comparator) (a b : Val)
    (p : String) (st : Diffs) : Diffs × Option GoErr :=
  let fp := p ++ useComparatorSuffix
  let r := c.equals a b
  if r.1 = NoDiff then (st, none)
  else if r.1 = LengthDiff then
    match lenOf a, lenOf b with
    | some la, some lb => (setLenDiffN d st fp la lb, none)
    | _, _ => (st, some .reflectPanic)
  else if r.1 = NilDiff then
    match isNilOf a, isNilOf b with
    | some na, some nb => (setNilDiffB d st fp na nb, none)
    | _, _ => (st, some .reflectPanic)
  else if r.1 = ElemDiff then (setDiff d st fp r.2.1 r.2.2, none)
  else (st, some .comparatorContract)

/-- On every diff set, `fieldName`s are pairwise distinct: at most one
record per field path. -/
def uniquePaths (st : Diffs) : Prop :=
  st.Pairwise (fun r1 r2 => r1.fieldName ≠ r2.fieldName)

/-! ## Helper lemmas about the diff sink -/

theorem find?_append_unmatched {p : DiffRec → Bool} {l1 l2 : Diffs}
    (h : ∀ x ∈ l1, p x = false) :
    (l1 ++ l2).find? p = l2.find? p := by
  induction l1 with
  | nil => simp
  | cons x l ih =>
    have hx := h x (by simp)
    simp only [List.cons_append, List.find?]
    rw [hx]
    exact ih (fun y hy => h y (by simp [hy]))

theorem find?_insertDiff (st : Diffs) (r : DiffRec) :
    (insertDiff st r).find? (fun x => x.fieldName = r.fieldName) = some r := by
  unfold insertDiff
  rw [find?_append_unmatched]
  · simp [List.find?]
  · intro x hx
    have := List.of_mem_filter hx
    simpa using this

theorem uniquePaths_insertDiff (st : Diffs) (r : DiffRec)
    (h : uniquePaths st) : uniquePaths (insertDiff st r) := by
  unfold uniquePaths insertDiff
  rw [List.pairwise_append]
  refine ⟨List.Pairwise.filter _ h, by simp, ?_⟩
  intro x hx y hy
  have hne := List.of_mem_filter hx
  simp only [List.mem_singleton] at hy
  subst hy
  simpa using hne

theorem countP_insertDiff (st : Diffs) (r : DiffRec) :
    (insertDiff st r).countP (fun x => x.fieldName = r.fieldName) = 1 := by
  unfold insertDiff
  rw [List.countP_append]
  have h0 : (st.filter (fun x => x.fieldName ≠ r.fieldName)).countP
      (fun x => x.fieldName = r.fieldName) = 0 := by
    rw [List.countP_eq_zero]
    intro x hx
    have := List.of_mem_filter hx
    simpa using this
  simp [h0, List.countP_cons]

/-! ## Claims C2, C9, C10 -/

/-- C2: a detected difference at path `p` is stored according to the
derived filter mode (include-patterns present: stored iff some
include-pattern matches; else exclude-patterns present: stored iff no
exclude-pattern matches; else always), and once include-patterns are set
a later `Ignore` call leaves the session completely unchanged. -/
theorem claim_c2_filter_mode_and_ignore_inert :
    (∀ (d : Differ) (st : Diffs) (p : String) (va vb : DVal),
      setDiff d st p va vb =
        if storedPerSpec d p then insertDiff st ⟨p, va, vb⟩ else st) ∧
    (∀ (d : Differ) (ms : List (String → Bool)),
      0 < d.includes.length → Ignore d ms = d) := by
  constructor
  · intro d st p va vb
    unfold setDiff getDiffMode storedPerSpec isIncludedField isIgnoredField
    by_cases h1 : 0 < d.includes.length
    · by_cases h2 : d.includes.any (fun m => m p) = true
      · simp [h1, h2]
      · simp [h1, h2]
    · by_cases h2 : 0 < d.ignores.length
      · by_cases h3 : d.ignores.any (fun m => m p) = true
        · simp [h1, h2, h3]
        · simp [h1, h2, h3]
      · simp [h1, h2]
  · intro d ms h
    simp [Ignore, h]

/-- C2 witness: a session with one include-pattern stores a matching path
and drops a non-matching one, and `Ignore` on it is the identity. -/
theorem claim_c2_witness :
    (setDiff { newDiffer with includes := [fun p => p = ".Name"] } []
        ".Name" (.ofStr "a") (.ofStr "b") =
      if storedPerSpec { newDiffer with includes := [fun p => p = ".Name"] }
          ".Name" then
        insertDiff [] ⟨".Name", .ofStr "a", .ofStr "b"⟩
      else []) ∧
    (0 < ({ newDiffer with
        includes := [fun p => p = ".Name"] } : Differ).includes.length ∧
      Ignore { newDiffer with includes := [fun p => p = ".Name"] }
          [fun _ => true] =
        { newDiffer with includes := [fun p => p = ".Name"] }) :=
  ⟨claim_c2_filter_mode_and_ignore_inert.1 _ _ _ _ _,
    by simp [newDiffer],
    claim_c2_filter_mode_and_ignore_inert.2 _ _ (by simp [newDiffer])⟩

/-- C9: the diff sink keeps at most one record per field path
(`setDiff` preserves path uniqueness), and of two insertions at the same
path during one comparison the later one overwrites the earlier: exact
lookup afterwards returns the later record. -/
theorem claim_c9_last_write_wins :
    (∀ (d : Differ) (st : Diffs) (p : String) (va vb : DVal),
      uniquePaths st → uniquePaths (setDiff d st p va vb)) ∧
    (∀ (d : Differ) (st : Diffs) (p : String) (v1 w1 v2 w2 : DVal),
      d.includes.length = 0 → d.ignores.length = 0 →
      FindDiff
        { d with diffs := setDiff d (setDiff d st p v1 w1) p v2 w2 } p =
        some ⟨p, v2, w2⟩) := by
  constructor
  · intro d st p va vb h
    unfold setDiff
    cases getDiffMode d with
    | includeMode =>
      by_cases hI : isIncludedField d p = true <;>
        simp [hI, uniquePaths_insertDiff, h]
    | ignoreMode =>
      by_cases hI : isIgnoredField d p = true <;>
        simp [hI, uniquePaths_insertDiff, h]
    | allDiffMode => exact uniquePaths_insertDiff _ _ h
  · intro d st p v1 w1 v2 w2 h1 h2
    have hmode : getDiffMode d = .allDiffMode := by
      simp [getDiffMode, h1, h2]
    simp only [FindDiff, setDiff, hmode]
    simpa using find?_insertDiff
      (insertDiff st ⟨p, v1, w1⟩) ⟨p, v2, w2⟩

/-- C9 witness: two unrestricted insertions at path `.A`; the invariant
is preserved and lookup returns the second record. -/
theorem claim_c9_witness :
    (uniquePaths [] →
      uniquePaths (setDiff newDiffer [] ".A" (.ofInt 1) (.ofInt 2))) ∧
    (newDiffer.includes.length = 0 ∧ newDiffer.ignores.length = 0 ∧
      FindDiff
        { newDiffer with
          diffs := setDiff newDiffer
            (setDiff newDiffer [] ".A" (.ofInt 1) (.ofInt 2))
            ".A" (.ofInt 3) (.ofInt 4) } ".A" =
        some ⟨".A", .ofInt 3, .ofInt 4⟩) :=
  ⟨claim_c9_last_write_wins.1 newDiffer [] ".A" (.ofInt 1) (.ofInt 2),
    rfl, rfl,
    claim_c9_last_write_wins.2 newDiffer [] ".A" (.ofInt 1) (.ofInt 2)
      (.ofInt 3) (.ofInt 4) rfl rfl⟩

/-- The source comparator branch coincides with the spec-worded dispatch
(the outcome tests commute since the outcome codes are distinct). -/
theorem runComparator_eq_dispatchSpec (d : Differ) (c : Comparator)
    (a b : Val) (p : String) (st : Diffs) :
    runComparator d c a b p st = comparatorDispatchSpec d c a b p st := by
  simp only [runComparator, comparatorDispatchSpec, NoDiff, LengthDiff,
    NilDiff, ElemDiff]
  split_ifs <;> first | rfl | omega

/-- C8: at a traversal position whose path is matched by a configured
comparator (the first matching one), once the guards pass, `doCompare`
behaves exactly as the spec's dispatch: annotated path, four recognized
outcomes, Protocol Violation otherwise, and no kind-based descent. -/
theorem claim_c8_comparator_override (d : Differ) (c : Comparator)
    (a b : Val) (p : String) (depth : Nat) (st : Diffs)
    (hfind : d.comparators.find? (fun c0 => c0.matchString p) = some c)
    (hdepth : ¬ d.maxDepth < depth)
    (hva : isValidV a = true) (hvb : isValidV b = true)
    (hty : tyEq (tyOf a) (tyOf b) = true) :
    doCompare d a b p depth st = comparatorDispatchSpec d c a b p st := by
  cases a <;> cases b <;> (try casesm* Option (Nat × Val)) <;>
    (try casesm* Option (Nat × List Val)) <;>
    (try casesm* Option (List (String × Val))) <;> (try casesm* Option Val) <;>
    solve
    | (rw [← runComparator_eq_dispatchSpec d c _ _ p st]
       simp [doCompare, hfind, hdepth, hva, hvb, hty])
    | simp [isValidV] at hva
    | simp [isValidV] at hvb
    | simp [tyOf, tyEq] at hty
    | (rename_i x y
       cases x <;>
         (rw [← runComparator_eq_dispatchSpec d c _ _ p st]
          simp [doCompare, hfind, hdepth, hva, hvb, hty]))

/-- C8 witness: a comparator matching the root path and reporting an
element difference on two unequal ints. -/
theorem claim_c8_witness :
    ({ newDiffer with comparators :=
        [⟨fun q => q = "$", fun _ _ => (ElemDiff, .ofStr "L", .ofStr "R")⟩]
      } : Differ).comparators.find? (fun c0 => c0.matchString "$") =
      some ⟨fun q => q = "$", fun _ _ => (ElemDiff, .ofStr "L", .ofStr "R")⟩ ∧
    ¬({ newDiffer with comparators :=
        [⟨fun q => q = "$", fun _ _ => (ElemDiff, .ofStr "L", .ofStr "R")⟩]
      } : Differ).maxDepth < 0 ∧
    isValidV (.vInt 1) = true ∧ isValidV (.vInt 2) = true ∧
    tyEq (tyOf (.vInt 1)) (tyOf (.vInt 2)) = true ∧
    doCompare
      { newDiffer with comparators :=
        [⟨fun q => q = "$", fun _ _ => (ElemDiff, .ofStr "L", .ofStr "R")⟩] }
      (.vInt 1) (.vInt 2) "$" 0 [] =
      comparatorDispatchSpec
        { newDiffer with comparators :=
          [⟨fun q => q = "$", fun _ _ => (ElemDiff, .ofStr "L", .ofStr "R")⟩] }
        ⟨fun q => q = "$", fun _ _ => (ElemDiff, .ofStr "L", .ofStr "R")⟩
        (.vInt 1) (.vInt 2) "$" [] :=
  ⟨by simp [List.find?], by simp [newDiffer, defaultDepthLimit], rfl, rfl,
    by simp [tyOf, tyEq],
    claim_c8_comparator_override _ _ _ _ _ _ _ (by simp [List.find?])
      (by simp [newDiffer, defaultDepthLimit]) rfl rfl (by simp [tyOf, tyEq])⟩

theorem arrPairs_eq_zip (seg : String) :
    ∀ xs ys : List Val,
      arrPairs seg xs ys = (xs.zip ys).map (fun pr => (pr.1, pr.2, seg)) := by
  intro xs
  induction xs with
  | nil => intro ys; cases ys <;> simp [arrPairs]
  | cons x xs ih =>
    intro ys
    cases ys with
    | nil => simp [arrPairs]
    | cons y ys => simp [arrPairs, ih ys]

/-- C5: with no comparator matching, two fixed arrays descend
index-by-index over the shared minimum of the two lengths, and the field
path used for every element's descent is the element's own type name
(independent of the parent path and of the element index). -/
theorem claim_c5_array_descent (d : Differ) (t u : Ty) (xs ys : List Val)
    (p : String) (depth : Nat) (st : Diffs)
    (hfind : d.comparators.find? (fun c0 => c0.matchString p) = none)
    (hdepth : ¬ d.maxDepth < depth)
    (hty : tyEq (tyOf (.vArray t xs)) (tyOf (.vArray u ys)) = true) :
    doCompare d (.vArray t xs) (.vArray u ys) p depth st =
      compareList d (arrPairs (tyName t) xs ys) depth st ∧
    (arrPairs (tyName t) xs ys).length = min xs.length ys.length ∧
    (∀ pr ∈ arrPairs (tyName t) xs ys, pr.2.2 = tyName t) := by
  refine ⟨?_, ?_, ?_⟩
  · simp [doCompare, hfind, hdepth, hty, isValidV]
  · simp [arrPairs_eq_zip]
  · intro pr hpr
    rw [arrPairs_eq_zip] at hpr
    simp only [List.mem_map] at hpr
    obtain ⟨q, _, hq⟩ := hpr
    rw [← hq]

/-- C5 witness: two length-2 int arrays at a non-root parent path. -/
theorem claim_c5_witness :
    (newDiffer.comparators.find? (fun c0 => c0.matchString ".F") = none) ∧
    (¬ newDiffer.maxDepth < 0) ∧
    tyEq (tyOf (.vArray .tInt [.vInt 1, .vInt 2]))
      (tyOf (.vArray .tInt [.vInt 3, .vInt 4])) = true ∧
    (doCompare newDiffer (.vArray .tInt [.vInt 1, .vInt 2])
        (.vArray .tInt [.vInt 3, .vInt 4]) ".F" 0 [] =
      compareList newDiffer
        (arrPairs (tyName .tInt) [.vInt 1, .vInt 2] [.vInt 3, .vInt 4]) 0 [] ∧
    (arrPairs (tyName .tInt) [.vInt 1, .vInt 2] [.vInt 3, .vInt 4]).length =
      min 2 2 ∧
    (∀ pr ∈ arrPairs (tyName .tInt) [.vInt 1, .vInt 2] [.vInt 3, .vInt 4],
      pr.2.2 = tyName .tInt)) :=
  ⟨rfl, by simp [newDiffer, defaultDepthLimit],
    by simp [tyOf, tyEq],
    claim_c5_array_descent newDiffer .tInt .tInt [.vInt 1, .vInt 2]
      [.vInt 3, .vInt 4] ".F" 0 [] rfl
      (by simp [newDiffer, defaultDepthLimit]) (by simp [tyOf, tyEq])⟩

/-- The element pairs a slice descent visits, as the claim words it:
index-by-index over the overlapping prefix of the two sides (after the
working copies are reordered when a sorter matches the path). -/
def sliceDescentPairs (d : Differ) (p : String) (xs ys : List Val) :
    List (Val × Val × String) :=
  match d.sorters.find? (fun s => s.matchString p) with
  | some s => idxPairs p 0 (sortList s.less xs) (sortList s.less ys)
  | none => idxPairs p 0 xs ys

theorem idxPairs_length (p : String) :
    ∀ (xs ys : List Val) (i : Nat),
      (idxPairs p i xs ys).length = min xs.length ys.length := by
  intro xs
  induction xs with
  | nil => intro ys i; cases ys <;> simp [idxPairs]
  | cons x xs ih =>
    intro ys i
    cases ys with
    | nil => simp [idxPairs]
    | cons y ys => simp [idxPairs, ih ys (i + 1)]; omega

theorem idxPairs_mem_path (p : String) :
    ∀ (xs ys : List Val) (i : Nat) (pr : Val × Val × String),
      pr ∈ idxPairs p i xs ys →
      ∃ j, j < min xs.length ys.length ∧
        pr.2.2 = p ++ "[" ++ toString (i + j) ++ "]" := by
  intro xs
  induction xs with
  | nil => intro ys i pr h; cases ys <;> simp [idxPairs] at h
  | cons x xs ih =>
    intro ys i pr h
    cases ys with
    | nil => simp [idxPairs] at h
    | cons y ys =>
      simp only [idxPairs, List.mem_cons] at h
      rcases h with h | h
      · exact ⟨0, by simp, by simp [h]⟩
      · obtain ⟨j, hj, hp⟩ := ih ys (i + 1) pr h
        refine ⟨j + 1, by simp; omega, ?_⟩
        rw [hp]
        have : i + 1 + j = i + (j + 1) := by omega
        rw [this]

theorem sortList_length (less : Val → Val → Bool) (l : List Val) :
    (sortList less l).length = l.length :=
  (List.perm_insertionSort _ l).length_eq

/-- C6: two non-nil sequences of differing lengths with distinct backing
(no comparator matching): exactly one length-mismatch record is inserted,
at `p ++ "[Length]"`, carrying the two lengths; descent then continues
over exactly the overlapping prefix (pairs indexed `0 .. min-1`), so no
out-of-range index is ever visited. -/
theorem claim_c6_slice_length_mismatch (d : Differ) (t : Ty) (ia ib : Nat)
    (xs ys : List Val) (p : String) (depth : Nat) (st : Diffs)
    (hfind : d.comparators.find? (fun c0 => c0.matchString p) = none)
    (hdepth : ¬ d.maxDepth < depth)
    (hty : tyEq t t = true)
    (hlen : xs.length ≠ ys.length)
    (hptr : ia ≠ ib)
    (hinc : d.includes.length = 0) (hig : d.ignores.length = 0) :
    doCompare d (.vSlice t (some (ia, xs))) (.vSlice t (some (ib, ys)))
        p depth st =
      compareList d (sliceDescentPairs d p xs ys) depth
        (insertDiff st
          ⟨p ++ "[Length]", .ofInt xs.length, .ofInt ys.length⟩) ∧
    (insertDiff st
        ⟨p ++ "[Length]", .ofInt xs.length, .ofInt ys.length⟩).countP
      (fun r => r.fieldName = p ++ "[Length]") = 1 ∧
    (sliceDescentPairs d p xs ys).length = min xs.length ys.length ∧
    (∀ pr ∈ sliceDescentPairs d p xs ys,
      ∃ j, j < min xs.length ys.length ∧
        pr.2.2 = p ++ "[" ++ toString j ++ "]") := by
  have hmode : getDiffMode d = .allDiffMode := by
    simp [getDiffMode, hinc, hig]
  refine ⟨?_, ?_, ?_, ?_⟩
  · simp only [doCompare, hfind, hdepth, isValidV, Bool.not_true,
      Bool.or_self, Bool.false_eq_true, if_false, ite_false]
    have hg : tyEq (tyOf (Val.vSlice t (some (ia, xs))))
        (tyOf (Val.vSlice t (some (ib, ys)))) = true := by
      simp [tyOf, tyEq, hty]
    simp only [tyOf, tyEq, hty, Bool.not_true, Bool.false_eq_true,
      if_false, ite_false, hlen, if_true, hptr, hdepth]
    simp only [setLenDiffN, setDiff, hmode, sliceDescentPairs]
    cases d.sorters.find? (fun s => s.matchString p) <;> simp [hlen]
  · simpa using countP_insertDiff st
      ⟨p ++ "[Length]", .ofInt xs.length, .ofInt ys.length⟩
  · unfold sliceDescentPairs
    cases d.sorters.find? (fun s => s.matchString p) with
    | none => exact idxPairs_length p xs ys 0
    | some s => simp [idxPairs_length, sortList_length]
  · intro pr hpr
    unfold sliceDescentPairs at hpr
    cases hs : d.sorters.find? (fun s => s.matchString p) with
    | none =>
      rw [hs] at hpr
      obtain ⟨j, hj, hp⟩ := idxPairs_mem_path p xs ys 0 pr hpr
      exact ⟨j, hj, by simpa using hp⟩
    | some s =>
      rw [hs] at hpr
      obtain ⟨j, hj, hp⟩ := idxPairs_mem_path p _ _ 0 pr hpr
      rw [sortList_length, sortList_length] at hj
      exact ⟨j, hj, by simpa using hp⟩



/-- C6 witness: sequences `[1,2,3]` vs `[1,2]` with distinct backing at
the root path. -/
theorem claim_c6_witness :
    (newDiffer.comparators.find? (fun c0 => c0.matchString "$") = none) ∧
    (¬ newDiffer.maxDepth < 0) ∧ tyEq .tInt .tInt = true ∧
    ([Val.vInt 1, .vInt 2, .vInt 3].length ≠ [Val.vInt 1, .vInt 2].length) ∧
    (1 : Nat) ≠ 2 ∧ newDiffer.includes.length = 0 ∧
    newDiffer.ignores.length = 0 ∧
    (doCompare newDiffer
        (.vSlice .tInt (some (1, [.vInt 1, .vInt 2, .vInt 3])))
        (.vSlice .tInt (some (2, [.vInt 1, .vInt 2]))) "$" 0 [] =
      compareList newDiffer
        (sliceDescentPairs newDiffer "$" [.vInt 1, .vInt 2, .vInt 3]
          [.vInt 1, .vInt 2]) 0
        (insertDiff [] ⟨"$" ++ "[Length]", .ofInt 3, .ofInt 2⟩) ∧
    (insertDiff [] ⟨"$" ++ "[Length]", .ofInt 3, .ofInt 2⟩).countP
      (fun r => r.fieldName = "$" ++ "[Length]") = 1 ∧
    (sliceDescentPairs newDiffer "$" [.vInt 1, .vInt 2, .vInt 3]
        [.vInt 1, .vInt 2]).length = min 3 2 ∧
    (∀ pr ∈ sliceDescentPairs newDiffer "$" [.vInt 1, .vInt 2, .vInt 3]
        [.vInt 1, .vInt 2],
      ∃ j, j < min 3 2 ∧ pr.2.2 = "$" ++ "[" ++ toString j ++ "]")) :=
  ⟨rfl, by simp [newDiffer, defaultDepthLimit], rfl, by simp, by simp,
    rfl, rfl,
    claim_c6_slice_length_mismatch newDiffer .tInt 1 2
      [.vInt 1, .vInt 2, .vInt 3] [.vInt 1, .vInt 2] "$" 0 [] rfl
      (by simp [newDiffer, defaultDepthLimit]) rfl (by simp) (by simp)
      rfl rfl⟩

theorem mapPairs_eq_map (p : String) (ys : List (String × Val)) :
    ∀ xs : List (String × Val),
      mapPairs p ys xs =
        xs.map (fun kv =>
          (kv.2, (lookupA ys kv.1).getD .vInvalid,
            p ++ "[" ++ kv.1 ++ "]")) := by
  intro xs
  induction xs with
  | nil => simp [mapPairs]
  | cons kv xs ih => obtain ⟨k, v⟩ := kv; simp [mapPairs, ih]

/-- C3 counterexample: comparing `{"x": 1}` against `{"y": 2}` (key `"x"`
absent from B) on a fresh session aborts with the fatal Invalid Value
error and records nothing - the descent at `$[x]` receives the invalid
zero `reflect.Value`, the validity guard panics, and no Difference Record
is produced, contrary to the claim's "can produce a Difference Record
(rather than aborting)". -/
theorem claim_c3_counterexample :
    doCompare newDiffer (.vMap .tInt (some [("x", .vInt 1)]))
      (.vMap .tInt (some [("y", .vInt 2)])) "$" 0 [] =
      ([], some .valueInvalid) := by
  simp [doCompare, compareList, newDiffer, defaultDepthLimit, isValidV,
    tyEq, tyOf, mapPairs, lookupA, setLenDiffN, setDiff, getDiffMode,
    insertDiff, List.find?]

/-- C3 amended: the map branch iterates exactly the keys present in A
(keys only in B are never visited); a key absent from B pairs A's value
with the invalid zero value, and descending into such a pair raises the
fatal Invalid Value error without recording anything. -/
theorem claim_c3_map_descent_amended (d : Differ) (t : Ty)
    (xs ys : List (String × Val)) (p : String) (depth : Nat) (st : Diffs)
    (hfind : d.comparators.find? (fun c0 => c0.matchString p) = none)
    (hdepth : ¬ d.maxDepth < depth)
    (hty : tyEq t t = true) :
    doCompare d (.vMap t (some xs)) (.vMap t (some ys)) p depth st =
      compareList d (mapPairs p ys xs) depth
        (if xs.length ≠ ys.length then
          setLenDiffN d st p xs.length ys.length
        else st) ∧
    mapPairs p ys xs =
      xs.map (fun kv =>
        (kv.2, (lookupA ys kv.1).getD .vInvalid,
          p ++ "[" ++ kv.1 ++ "]")) ∧
    (∀ (v : Val) (p' : String) (dep' : Nat) (st' : Diffs),
      ¬ d.maxDepth < dep' →
      doCompare d v .vInvalid p' dep' st' = (st', some .valueInvalid)) := by
  refine ⟨?_, mapPairs_eq_map p ys xs, ?_⟩
  · simp [doCompare, hfind, hdepth, isValidV, tyOf, tyEq, hty]
  · intro v p' dep' st' hdep'
    cases v <;> simp [doCompare, isValidV, hdep']

/-- C3 witness for the amended claim: `{"x": 1}` vs `{"x": 2, "y": 3}`
on a fresh session. -/
theorem claim_c3_witness :
    (newDiffer.comparators.find? (fun c0 => c0.matchString "$") = none) ∧
    (¬ newDiffer.maxDepth < 0) ∧ tyEq .tInt .tInt = true ∧
    (doCompare newDiffer (.vMap .tInt (some [("x", .vInt 1)]))
        (.vMap .tInt (some [("x", .vInt 2), ("y", .vInt 3)])) "$" 0 [] =
      compareList newDiffer
        (mapPairs "$" [("x", .vInt 2), ("y", .vInt 3)] [("x", .vInt 1)]) 0
        (if ([("x", Val.vInt 1)].length ≠
            [("x", Val.vInt 2), ("y", Val.vInt 3)].length) then
          setLenDiffN newDiffer [] "$" 1 2
        else []) ∧
    mapPairs "$" [("x", .vInt 2), ("y", .vInt 3)] [("x", .vInt 1)] =
      [("x", Val.vInt 1)].map (fun kv =>
        (kv.2, (lookupA [("x", .vInt 2), ("y", .vInt 3)] kv.1).getD
          .vInvalid, "$" ++ "[" ++ kv.1 ++ "]")) ∧
    (∀ (v : Val) (p' : String) (dep' : Nat) (st' : Diffs),
      ¬ newDiffer.maxDepth < dep' →
      doCompare newDiffer v .vInvalid p' dep' st' =
        (st', some .valueInvalid))) :=
  ⟨rfl, by simp [newDiffer, defaultDepthLimit], rfl,
    claim_c3_map_descent_amended newDiffer .tInt [("x", .vInt 1)]
      [("x", .vInt 2), ("y", .vInt 3)] "$" 0 [] rfl
      (by simp [newDiffer, defaultDepthLimit]) rfl⟩

/-- Textual-leaf comparison in the priority order the claim states:
trim-by-cutset rules are consulted first, trim-space rules only when no
cutset rule matches; trimmed strings are compared and the untrimmed
originals recorded; no fall-through after a matching trim rule. -/
def stringLeafClaimOrder (d : Differ) (s t p : String) (st : Diffs) :
    Diffs × Option GoErr :=
  match d.trimTags.find? (fun tt => tt.fieldMatch p) with
  | some tt =>
    if goTrim s tt.cutset = goTrim t tt.cutset then (st, none)
    else (setDiff d st p (.ofVal (.vStr s)) (.ofVal (.vStr t)), none)
  | none =>
    match d.trimSpaces.find? (fun m => m p) with
    | some _ =>
      if goTrimSpace s = goTrimSpace t then (st, none)
      else (setDiff d st p (.ofVal (.vStr s)) (.ofVal (.vStr t)), none)
    | none =>
      if deepEq (.vStr s) (.vStr t) then (st, none)
      else (setDiff d st p (.ofVal (.vStr s)) (.ofVal (.vStr t)), none)

/-- Textual-leaf comparison in the order the code implements
(the amended claim): trim-space rules take priority; only when no
trim-space rule matches the path are trim-by-cutset rules consulted;
either way the trimmed strings are compared, the untrimmed originals are
recorded on inequality, and there is no fall-through to generic leaf
comparison after a matching trim rule. -/
def stringLeafAmended (d : Differ) (s t p : String) (st : Diffs) :
    Diffs × Option GoErr :=
  match d.trimSpaces.find? (fun m => m p) with
  | some _ =>
    if goTrimSpace s = goTrimSpace t then (st, none)
    else (setDiff d st p (.ofVal (.vStr s)) (.ofVal (.vStr t)), none)
  | none =>
    match d.trimTags.find? (fun tt => tt.fieldMatch p) with
    | some tt =>
      if goTrim s tt.cutset = goTrim t tt.cutset then (st, none)
      else (setDiff d st p (.ofVal (.vStr s)) (.ofVal (.vStr t)), none)
    | none =>
      if deepEq (.vStr s) (.vStr t) then (st, none)
      else (setDiff d st p (.ofVal (.vStr s)) (.ofVal (.vStr t)), none)

/-- C4 counterexample: with a trim-by-cutset rule (cutset `" x"`) and a
trim-space rule both matching path `p`, comparing `"hi x"` with `"hi"`
would record nothing under the claim's priority (cutset first: both trim
to `"hi"`), but the code checks trim-space rules first and records a
difference - so the claim's priority order is wrong on the code. -/
theorem claim_c4_counterexample :
    stringLeafClaimOrder
      { newDiffer with
        trimSpaces := [fun _ => true]
        trimTags := [⟨fun _ => true, " x"⟩] } "hi x" "hi" "p" [] =
      ([], none) ∧
    doCompare
      { newDiffer with
        trimSpaces := [fun _ => true]
        trimTags := [⟨fun _ => true, " x"⟩] }
      (.vStr "hi x") (.vStr "hi") "p" 0 [] =
      ([⟨"p", .ofVal (.vStr "hi x"), .ofVal (.vStr "hi")⟩], none) := by
  constructor
  · have hc : goTrim "hi x" " x" = goTrim "hi" " x" := by decide
    simp [stringLeafClaimOrder, List.find?, hc]
  · have hd : goTrimSpace "hi x" ≠ goTrimSpace "hi" := by decide
    simp [doCompare, newDiffer, defaultDepthLimit, isValidV, tyOf, tyEq,
      List.find?, hd, setDiff, getDiffMode, insertDiff]

/-- C4 amended: at a textual leaf the engine applies, in priority order,
any matching trim-space rule first, else any matching trim-by-cutset
rule; it compares the trimmed strings, records the untrimmed originals
when they differ, and never falls through to generic leaf comparison
after a matching trim rule. -/
theorem claim_c4_trim_priority_amended (d : Differ) (s t p : String)
    (depth : Nat) (st : Diffs)
    (hfind : d.comparators.find? (fun c0 => c0.matchString p) = none)
    (hdepth : ¬ d.maxDepth < depth) :
    doCompare d (.vStr s) (.vStr t) p depth st =
      stringLeafAmended d s t p st := by
  simp only [doCompare, hfind, hdepth, isValidV, tyOf, tyEq,
    Bool.not_true, Bool.or_self, Bool.false_eq_true, if_false, ite_false,
    stringLeafAmended]

/-- C4 witness for the amended claim: a session with one trim-space rule
matching `.Comment`. -/
theorem claim_c4_witness :
    (({ newDiffer with trimSpaces := [fun q => q = ".Comment"] }
        : Differ).comparators.find?
      (fun c0 => c0.matchString ".Comment") = none) ∧
    (¬ ({ newDiffer with trimSpaces := [fun q => q = ".Comment"] }
        : Differ).maxDepth < 0) ∧
    doCompare { newDiffer with trimSpaces := [fun q => q = ".Comment"] }
        (.vStr "hi ") (.vStr "hi") ".Comment" 0 [] =
      stringLeafAmended
        { newDiffer with trimSpaces := [fun q => q = ".Comment"] }
        "hi " "hi" ".Comment" [] :=
  ⟨rfl, by simp [newDiffer, defaultDepthLimit],
    claim_c4_trim_priority_amended _ "hi " "hi" ".Comment" 0 [] rfl
      (by simp [newDiffer, defaultDepthLimit])⟩

/-- C10: when the host regular-expression compiler rejects the pattern
(`regexp.Compile` returns an error), `FindDiffFuzzily` returns the empty
result without raising any error; it reads but never writes the session's
accumulated records. -/
theorem claim_c10_fuzzy_invalid_pattern
    (compileF : String → Option (String → Bool)) (d : Differ)
    (expr : String) (h : compileF expr = none) :
    FindDiffFuzzily compileF d expr = [] := by
  simp [FindDiffFuzzily, h]

/-- C10 witness: a compiler that rejects every pattern (as Go's does for
an unclosed group such as an unmatched opening parenthesis). -/
theorem claim_c10_witness :
    (fun _ : String => (none : Option (String → Bool))) "(" = none ∧
    FindDiffFuzzily (fun _ => none)
      { newDiffer with diffs := [⟨".A", .ofInt 1, .ofInt 2⟩] } "(" = [] :=
  ⟨rfl, claim_c10_fuzzy_invalid_pattern _ _ _ rfl⟩

theorem compareList_keeps (d : Differ) (depth : Nat) :
    ∀ ps : List (Val × Val × String),
      (∀ pr ∈ ps, ∀ (p' : String) (st' : Diffs),
        (doCompare d pr.1 pr.2.1 p' depth st').1 = st') →
      ∀ st, (compareList d ps depth st).1 = st := by
  intro ps
  induction ps with
  | nil => intro _ st; simp [compareList]
  | cons pr rest ih =>
    intro h st
    have h1 := h pr (by simp) pr.2.2 st
    simp only [compareList]
    rcases hres : doCompare d pr.1 pr.2.1 pr.2.2 depth st with ⟨st2, e⟩
    rw [hres] at h1
    simp only at h1
    subst h1
    cases e with
    | none => simpa using ih (fun q hq => h q (by simp [hq])) _
    | some err => simp

theorem sz_mem_szl {v : Val} : ∀ {l : List Val}, v ∈ l → sz v < 1 + szl l := by
  intro l
  induction l with
  | nil => intro h; simp at h
  | cons x xs ih =>
    intro h
    rcases List.mem_cons.mp h with h | h
    · subst h; simp [szl]; omega
    · have := ih h; simp [szl]; omega

theorem sz_mem_szf {k : String} {v : Val} :
    ∀ {l : List (String × Val)}, (k, v) ∈ l → sz v < 1 + szf l := by
  intro l
  induction l with
  | nil => intro h; simp at h
  | cons x xs ih =>
    intro h
    rcases List.mem_cons.mp h with h | h
    · rw [← h]; simp [szf]; omega
    · have := ih h; simp [szf]; omega

theorem arrPairs_mem (seg : String) :
    ∀ (xs ys : List Val) (pr : Val × Val × String),
      pr ∈ arrPairs seg xs ys →
      pr.1 ∈ xs ∧ (deepEqL xs ys = true → deepEq pr.1 pr.2.1 = true) := by
  intro xs
  induction xs with
  | nil => intro ys pr h; cases ys <;> simp [arrPairs] at h
  | cons x xs ih =>
    intro ys pr h
    cases ys with
    | nil => simp [arrPairs] at h
    | cons y ys =>
      simp only [arrPairs, List.mem_cons] at h
      rcases h with h | h
      · subst h
        refine ⟨by simp, ?_⟩
        intro hL
        simp [deepEqL] at hL
        simp [hL.1]
      · obtain ⟨h1, h2⟩ := ih ys pr h
        refine ⟨by simp [h1], ?_⟩
        intro hL
        simp [deepEqL] at hL
        exact h2 hL.2

theorem idxPairs_mem (p : String) :
    ∀ (xs ys : List Val) (i : Nat) (pr : Val × Val × String),
      pr ∈ idxPairs p i xs ys →
      pr.1 ∈ xs ∧ (deepEqL xs ys = true → deepEq pr.1 pr.2.1 = true) := by
  intro xs
  induction xs with
  | nil => intro ys i pr h; cases ys <;> simp [idxPairs] at h
  | cons x xs ih =>
    intro ys i pr h
    cases ys with
    | nil => simp [idxPairs] at h
    | cons y ys =>
      simp only [idxPairs, List.mem_cons] at h
      rcases h with h | h
      · subst h
        refine ⟨by simp, ?_⟩
        intro hL
        simp [deepEqL] at hL
        simp [hL.1]
      · obtain ⟨h1, h2⟩ := ih ys (i + 1) pr h
        refine ⟨by simp [h1], ?_⟩
        intro hL
        simp [deepEqL] at hL
        exact h2 hL.2

theorem fieldPairs_mem (p : String) :
    ∀ (xs ys : List (String × Val)) (pr : Val × Val × String),
      pr ∈ fieldPairs p xs ys →
      (∃ k, (k, pr.1) ∈ xs) ∧
        (deepEqF xs ys = true → deepEq pr.1 pr.2.1 = true) := by
  intro xs
  induction xs with
  | nil => intro ys pr h; cases ys <;> simp [fieldPairs] at h
  | cons x xs ih =>
    intro ys pr h
    cases ys with
    | nil => simp [fieldPairs] at h
    | cons y ys =>
      obtain ⟨n, xv⟩ := x
      obtain ⟨m, yv⟩ := y
      simp only [fieldPairs, List.mem_cons] at h
      rcases h with h | h
      · subst h
        refine ⟨⟨n, by simp⟩, ?_⟩
        intro hF
        simp [deepEqF] at hF
        simp [hF.1.2]
      · obtain ⟨⟨k, h1⟩, h2⟩ := ih ys pr h
        refine ⟨⟨k, by simp [h1]⟩, ?_⟩
        intro hF
        simp [deepEqF] at hF
        exact h2 hF.2

theorem mapPairs_mem (p : String) (ys : List (String × Val)) :
    ∀ (xs : List (String × Val)) (pr : Val × Val × String),
      pr ∈ mapPairs p ys xs →
      (∃ k, (k, pr.1) ∈ xs) ∧
        (deepEqM ys xs = true → deepEq pr.1 pr.2.1 = true) := by
  intro xs
  induction xs with
  | nil => intro pr h; simp [mapPairs] at h
  | cons x xs ih =>
    intro pr h
    obtain ⟨k0, v0⟩ := x
    simp only [mapPairs, List.mem_cons] at h
    rcases h with h | h
    · subst h
      refine ⟨⟨k0, by simp⟩, ?_⟩
      intro hM
      simp only [deepEqM, Bool.and_eq_true] at hM
      obtain ⟨hM1, _⟩ := hM
      cases hw : lookupA ys k0 with
      | none => rw [hw] at hM1; simp at hM1
      | some w => rw [hw] at hM1; simpa [hw] using hM1
    · obtain ⟨⟨k, h1⟩, h2⟩ := ih pr h
      refine ⟨⟨k, by simp [h1]⟩, ?_⟩
      intro hM
      simp only [deepEqM, Bool.and_eq_true] at hM
      exact h2 hM.2



theorem c1Aux : ∀ (n : Nat) (d : Differ) (a b : Val) (p : String)
    (depth : Nat) (st : Diffs),
    d.comparators = [] → d.sorters = [] → sz a ≤ n → deepEq a b = true →
    (doCompare d a b p depth st).1 = st := by
  intro n
  induction n using Nat.strong_induction_on with
  | _ n ih =>
    intro d a b p depth st hc hs hsz hdeep
    have hfind : ∀ q : String,
        d.comparators.find? (fun c => c.matchString q) = none := by
      intro q; rw [hc]; rfl
    have hsort : ∀ q : String,
        d.sorters.find? (fun s => s.matchString q) = none := by
      intro q; rw [hs]; rfl
    by_cases hdep : d.maxDepth < depth
    case pos =>
      cases a <;> cases b <;> (try casesm* Option (Nat × Val)) <;>
        (try casesm* Option (Nat × List Val)) <;>
        (try casesm* Option (List (String × Val))) <;>
        (try casesm* Option Val) <;>
        solve
        | simp [doCompare, hdep]
        | (rename_i x y
           cases x <;> simp [doCompare, hdep])
    case neg =>
    cases a <;> cases b
    case vInt.vInt k m =>
      simp [deepEq] at hdeep
      subst hdeep
      simp [doCompare, hdep, hfind, isValidV, tyOf, tyEq, deepEq]
    case vBool.vBool k m =>
      simp [deepEq] at hdeep
      subst hdeep
      simp [doCompare, hdep, hfind, isValidV, tyOf, tyEq, deepEq]
    case vStr.vStr k m =>
      simp [deepEq] at hdeep
      subst hdeep
      simp only [doCompare, hdep, hfind, isValidV, tyOf, tyEq,
        Bool.not_true, Bool.or_self, Bool.false_eq_true, if_false,
        ite_false]
      cases d.trimSpaces.find? (fun f => f p) with
      | some _ => simp
      | none =>
        cases d.trimTags.find? (fun tt => tt.fieldMatch p) with
        | some tt => simp
        | none => simp [deepEq]
    case vInvalid.vInvalid =>
      simp [doCompare, hdep, isValidV]
    case vPtr.vPtr t pa u pb =>
      cases pa <;> cases pb <;> simp only [deepEq] at hdeep <;>
        simp only [Bool.and_eq_true] at hdeep
      case none.none =>
        simp [doCompare, hdep, hfind, isValidV, tyOf, tyEq, hdeep.1]
      case some.some iv jw =>
        obtain ⟨hty, hrest⟩ := hdeep
        simp only [Bool.or_eq_true, beq_iff_eq] at hrest
        simp only [doCompare, hdep, hfind, isValidV, tyOf, tyEq, hty,
          Bool.not_true, Bool.or_self, Bool.false_eq_true, if_false,
          ite_false, Bool.not_false, if_true, ite_true]
        by_cases hij : iv.1 = jw.1
        · simp [hij]
        · simp only [hij, if_false, ite_false]
          have hde : deepEq iv.2 jw.2 = true := by
            rcases hrest with h | h
            · exact absurd h hij
            · exact h
          have hlt : sz iv.2 < n := by
            have : sz (Val.vPtr t (some iv)) = 2 + sz iv.2 := by
              simp [sz]
            omega
          exact ih (sz iv.2) hlt d iv.2 jw.2 p depth st hc hs
            (le_refl _) hde
      all_goals simp at hdeep
    case vSlice.vSlice t pa u pb =>
      cases pa <;> cases pb <;> simp only [deepEq] at hdeep <;>
        simp only [Bool.and_eq_true] at hdeep
      case none.none =>
        simp [doCompare, hdep, hfind, isValidV, tyOf, tyEq, hdeep.1]
      case some.some il jl =>
        obtain ⟨hty, hrest⟩ := hdeep
        simp only [Bool.and_eq_true, Bool.or_eq_true, beq_iff_eq] at hrest
        obtain ⟨hlen, hptr⟩ := hrest
        simp only [doCompare, hdep, hfind, hsort, isValidV, tyOf, tyEq,
          hty, Bool.not_true, Bool.or_self, Bool.false_eq_true, if_false,
          ite_false, Bool.not_false, if_true, ite_true, hlen, ne_eq,
          not_true_eq_false]
        by_cases hij : il.1 = jl.1
        · simp [hij]
        · simp only [hij, if_false, ite_false]
          have hL : deepEqL il.2 jl.2 = true := by
            rcases hptr with h | h
            · exact absurd h hij
            · exact h
          apply compareList_keeps
          intro pr hpr p' st'
          obtain ⟨hmem, hde⟩ := idxPairs_mem p il.2 jl.2 0 pr hpr
          have hlt : sz pr.1 < n := by
            have h1 := sz_mem_szl hmem
            have h2 : sz (Val.vSlice t (some il)) = 1 + szl il.2 := by
              simp [sz]
            omega
          exact ih (sz pr.1) hlt d pr.1 pr.2.1 p' depth st' hc hs
            (le_refl _) (hde hL)
      all_goals simp at hdeep
    case vArray.vArray t xs u ys =>
      simp only [deepEq, Bool.and_eq_true, beq_iff_eq] at hdeep
      obtain ⟨⟨hty, hlen⟩, hL⟩ := hdeep
      simp only [doCompare, hdep, hfind, isValidV, tyOf, tyEq, hty,
        hlen, beq_self_eq_true, Bool.and_true, Bool.true_and,
        Bool.not_true, Bool.or_self, Bool.false_eq_true, if_false,
        ite_false, Bool.not_false, if_true, ite_true]
      apply compareList_keeps
      intro pr hpr p' st'
      obtain ⟨hmem, hde⟩ := arrPairs_mem (tyName t) xs ys pr hpr
      have hlt : sz pr.1 < n := by
        have h1 := sz_mem_szl hmem
        have h2 : sz (Val.vArray t xs) = 1 + szl xs := by simp [sz]
        omega
      exact ih (sz pr.1) hlt d pr.1 pr.2.1 p' depth st' hc hs
        (le_refl _) (hde hL)
    case vStruct.vStruct nm xfs nm2 yfs =>
      simp only [deepEq, Bool.and_eq_true, beq_iff_eq] at hdeep
      obtain ⟨hnm, hF⟩ := hdeep
      subst hnm
      simp only [doCompare, hdep, hfind, isValidV, tyOf, tyEq,
        Bool.not_true, Bool.or_self, Bool.false_eq_true, if_false,
        ite_false, Bool.not_false, if_true, ite_true]
      cases hg : tyEqF (tyFields xfs) (tyFields yfs) with
      | false => simp [hg]
      | true =>
        simp only [hg, Bool.and_true, Bool.true_and, beq_self_eq_true,
          Bool.not_true, Bool.false_eq_true, if_false, ite_false,
          not_true_eq_false, false_or, or_false, if_neg]
        apply compareList_keeps
        intro pr hpr p' st'
        obtain ⟨⟨k, hmem⟩, hde⟩ := fieldPairs_mem p xfs yfs pr hpr
        have hlt : sz pr.1 < n := by
          have h1 := sz_mem_szf hmem
          have h2 : sz (Val.vStruct nm xfs) = 1 + szf xfs := by simp [sz]
          omega
        exact ih (sz pr.1) hlt d pr.1 pr.2.1 p' (depth + 1) st' hc hs
          (le_refl _) (hde hF)
    case vMap.vMap t pa u pb =>
      cases pa <;> cases pb <;> simp only [deepEq] at hdeep <;>
        simp only [Bool.and_eq_true] at hdeep
      case none.none =>
        simp [doCompare, hdep, hfind, isValidV, tyOf, tyEq, hdeep.1]
      case some.some xkvs ykvs =>
        obtain ⟨hty, hrest⟩ := hdeep
        simp only [Bool.and_eq_true, beq_iff_eq] at hrest
        obtain ⟨hlen, hM⟩ := hrest
        simp only [doCompare, hdep, hfind, isValidV, tyOf, tyEq, hty,
          Bool.not_true, Bool.or_self, Bool.false_eq_true, if_false,
          ite_false, Bool.not_false, if_true, ite_true, hlen, ne_eq,
          not_true_eq_false]
        apply compareList_keeps
        intro pr hpr p' st'
        obtain ⟨⟨k, hmem⟩, hde⟩ := mapPairs_mem p ykvs xkvs pr hpr
        have hlt : sz pr.1 < n := by
          have h1 := sz_mem_szf hmem
          have h2 : sz (Val.vMap t (some xkvs)) = 1 + szf xkvs := by
            simp [sz]
          omega
        exact ih (sz pr.1) hlt d pr.1 pr.2.1 p' depth st' hc hs
          (le_refl _) (hde hM)
      all_goals simp at hdeep
    case vIface.vIface pa pb =>
      cases pa <;> cases pb <;> simp only [deepEq] at hdeep
      case none.none =>
        simp [doCompare, hdep, isValidV, tyOf, tyEq, hfind]
      case some.some x y =>
        have hlt : sz x < n := by
          have h2 : sz (Val.vIface (some x)) = 2 + sz x := by simp [sz]
          omega
        cases x
        case vStr s =>
          have hstep : doCompare d (.vIface (some (Val.vStr s)))
              (.vIface (some y)) p depth st =
              doCompare d (Val.vStr s) y p (depth) st := by
            simp [doCompare, hdep, hfind, isValidV, tyOf, tyEq]
          rw [hstep]
          exact ih (sz (Val.vStr s)) hlt d _ y p (depth) st hc hs
            (le_refl _) hdeep
        case vBool q =>
          have hstep : doCompare d (.vIface (some (Val.vBool q)))
              (.vIface (some y)) p depth st =
              doCompare d (Val.vBool q) y p (depth) st := by
            simp [doCompare, hdep, hfind, isValidV, tyOf, tyEq]
          rw [hstep]
          exact ih (sz (Val.vBool q)) hlt d _ y p (depth) st hc hs
            (le_refl _) hdeep
        case vSlice u pl =>
          have hstep : doCompare d (.vIface (some (Val.vSlice u pl)))
              (.vIface (some y)) p depth st =
              doCompare d (Val.vSlice u pl) y p (depth) st := by
            simp [doCompare, hdep, hfind, isValidV, tyOf, tyEq]
          rw [hstep]
          exact ih (sz (Val.vSlice u pl)) hlt d _ y p (depth) st hc hs
            (le_refl _) hdeep
        case vMap u pm =>
          have hstep : doCompare d (.vIface (some (Val.vMap u pm)))
              (.vIface (some y)) p depth st =
              doCompare d (Val.vMap u pm) y p (depth + 1) st := by
            simp [doCompare, hdep, hfind, isValidV, tyOf, tyEq]
          rw [hstep]
          exact ih (sz (Val.vMap u pm)) hlt d _ y p (depth + 1) st hc hs
            (le_refl _) hdeep
        all_goals simp [doCompare, hdep, isValidV, tyOf, tyEq, hfind]
      all_goals simp at hdeep
    all_goals simp [deepEq] at hdeep



/-- C1: for deeply equal values of identical declared type, a comparison
on a freshly constructed session yields zero Difference Records: the
session's diff set is empty after the call. -/
theorem claim_c1_equal_values_yield_no_records (a b : Val)
    (h : deepEq a b = true) :
    (Compare newDiffer a b).1.diffs = [] := by
  have hmain : ∀ (q : String) (depth : Nat),
      (doCompare newDiffer a b q depth newDiffer.diffs).1 =
        newDiffer.diffs :=
    fun q depth =>
      c1Aux (sz a) newDiffer a b q depth _ rfl rfl (le_refl _) h
  cases a <;> cases b <;>
    solve
    | rfl
    | (simp only [Compare]
       split
       · rfl
       · split
         · rfl
         · exact hmain _ 0)

/-- C1 witness: a two-field record value compared against itself. -/
theorem claim_c1_witness :
    deepEq (.vStruct "T" [("Name", .vStr "go"), ("Age", .vInt 30)])
      (.vStruct "T" [("Name", .vStr "go"), ("Age", .vInt 30)]) = true ∧
    (Compare newDiffer
        (.vStruct "T" [("Name", .vStr "go"), ("Age", .vInt 30)])
        (.vStruct "T" [("Name", .vStr "go"), ("Age", .vInt 30)])).1.diffs =
      [] :=
  ⟨by simp [deepEq, deepEqF],
    claim_c1_equal_values_yield_no_records _ _ (by simp [deepEq, deepEqF])⟩

end Sdiffer
